import Mathlib

/-!
Verification of the event reconciliation pipeline of the
jaffarkeikei/smart-stellar-demo repository.

The pipeline lives in `src/components/Welcome.svelte` (lifecycle,
`callGetMessages`, `callGetEvents`) and in the `getEvents` /
`getMessages` / `truncate` functions of `src/utils/rpc.ts`,
`src/utils/zettablocks.ts` and `src/utils/base.ts`, quoted verbatim in
`docs/event-handling.md` (lines 128-152, 178-208, 217-257) and
`docs/frontend.md` (lines 331-335).

Modelling conventions:
* `ChatEvent` timestamps are the millisecond values produced by
  `Date.prototype.getTime()`, modelled as `Nat`; the sort comparator
  `(a, b) => a.timestamp.getTime() - b.timestamp.getTime()` induces the
  `≤` order on those numbers, and JS `Array.prototype.sort` is a stable
  sort, modelled by `List.insertionSort` (which is stable).
* JS arrays are mutable heap objects; `Array.prototype.push` and
  `Array.prototype.sort` mutate in place.  Where object identity
  matters, arrays are modelled as references into an explicit heap.
* Network calls are modelled by passing their result (success payload
  or transport failure) as an explicit argument.
-/

namespace StellarChat

/-- The `ChatEvent` interface (docs/event-handling.md lines 86-94):
`id`, `addr` (sender address, `string | undefined`), `timestamp`,
`txHash`, `msg`. -/
structure ChatEvent where
  id : String
  addr : Option String
  timestamp : Nat
  txHash : String
  msg : String
deriving DecidableEq

/-- The address union held in the first topic of a raw event.  The code
switches on `topic0.switch().name`, which is the discriminator name of
the XDR `SCAddress` union; the two recognized arms carry the data the
code extracts, and `otherDiscriminator` stands for every other
discriminator value (the switch has no default arm). -/
inductive ScAddress where
  | scAddressTypeAccount (ed25519 : String)
  | scAddressTypeContract (contractIdBytes : String)
  | otherDiscriminator (discName : String) (payload : String)
deriving DecidableEq

/-- One raw event as returned by `rpc.getEvents` (fields consumed by the
processing loop in docs/event-handling.md lines 178-208). -/
structure RawEvent where
  type_ : String
  contractId : Option String
  id : String
  topic0 : ScAddress
  value : String
  ledgerClosedAt : Nat
  txHash : String
deriving DecidableEq

/-- JS truthiness of `event.contractId` in the guard
`!event.contractId`: `undefined` and the empty string are falsy. -/
def truthy : Option String → Bool
  | none => false
  | some s => s != ""

/-- Model of the external SDK call
`Address.account(topic0.accountId().ed25519()).toString()` (an
injective strkey rendering, uninterpreted here). -/
def accountAddressToString (ed25519 : String) : String :=
  "G:" ++ ed25519

/-- Model of the external SDK call
`Address.contract(topic0.contractId()).toString()`. -/
def contractAddressToString (contractIdBytes : String) : String :=
  "C:" ++ contractIdBytes

/-- Model of the external SDK call `scValToNative(event.value)`: the
payload field of the model already holds the decoded string. -/
def scValToNative (value : String) : String :=
  value

/-- The `switch (topic0.switch().name)` block of the processing loop
(docs/event-handling.md lines 185-198).  `addr` is declared as
`let addr: string | undefined` and the switch has no default arm, so an
unrecognized discriminator leaves `addr` equal to `undefined`. -/
def decodeAddr : ScAddress → Option String
  | .scAddressTypeAccount k => some (accountAddressToString k)
  | .scAddressTypeContract c => some (contractAddressToString c)
  | .otherDiscriminator _ _ => none

/-- The guard `if (event.type !== "contract" || !event.contractId) return;`
(docs/event-handling.md line 179), as the condition for keeping the
event. -/
def passesFilter (event : RawEvent) : Bool :=
  (event.type_ == "contract") && truthy event.contractId

/-- `msgs.findIndex(({id}) => id === event.id) === -1` is false exactly
when some record of `msgs` has the given id. -/
def hasId (msgs : List ChatEvent) (i : String) : Bool :=
  msgs.any fun m => m.id == i

/-- The record pushed by the processing loop
(docs/event-handling.md lines 200-207). -/
def toChatEvent (event : RawEvent) : ChatEvent :=
  { id := event.id
    addr := decodeAddr event.topic0
    timestamp := event.ledgerClosedAt
    txHash := event.txHash
    msg := scValToNative event.value }

/-- One iteration of `events.forEach((event) => ...)`
(docs/event-handling.md lines 178-208): skip non-contract events, skip
events whose id is already in the accumulator, otherwise push the
decoded record. -/
def processEvent (msgs : List ChatEvent) (event : RawEvent) : List ChatEvent :=
  if passesFilter event = false then msgs
  else if hasId msgs event.id then msgs
  else msgs ++ [toChatEvent event]

/-- The whole `events.forEach` loop: the accumulator `msgs` is threaded
through the iterations (each push is visible to later dedup checks). -/
def processEvents (msgs : List ChatEvent) (events : List RawEvent) : List ChatEvent :=
  events.foldl processEvent msgs

/-- Result of the `rpc.getEvents` network call: a list of raw events, or
a transport-level failure. -/
inductive RpcResult where
  | ok (events : List RawEvent)
  | rpcUnavailable
deriving DecidableEq

/-- `getEvents` from src/utils/rpc.ts (docs/event-handling.md lines
128-152): on success the fetched events are folded into `msgs`; the
`catch` block logs and the function falls through to `return msgs`, so a
transport failure returns the existing sequence unchanged. -/
def getEvents (msgs : List ChatEvent) (fetched : RpcResult) : List ChatEvent :=
  match fetched with
  | .ok events => processEvents msgs events
  | .rpcUnavailable => msgs

/-- Result of the Zettablock GraphQL query: decoded rows, or an
indexer failure. -/
inductive IndexerResult where
  | ok (rows : List ChatEvent)
  | indexerUnavailable
deriving DecidableEq

/-- `getMessages` from src/utils/zettablocks.ts (docs/event-handling.md
lines 217-257): the `catch` block logs and returns `[]`; on success the
decoded rows are returned. -/
def getMessages : IndexerResult → List ChatEvent
  | .ok rows => rows
  | .indexerUnavailable => []

/-- The sort comparator relation induced by
`(a, b) => a.timestamp.getTime() - b.timestamp.getTime()`. -/
def tsLe (a b : ChatEvent) : Prop :=
  a.timestamp ≤ b.timestamp

instance : DecidableRel tsLe := fun a b => Nat.decLe a.timestamp b.timestamp

instance : IsTotal ChatEvent tsLe :=
  ⟨fun a b => Nat.le_total a.timestamp b.timestamp⟩

instance : IsTrans ChatEvent tsLe :=
  ⟨fun _ _ _ h1 h2 => Nat.le_trans h1 h2⟩

/-- `msgs.sort((a, b) => a.timestamp.getTime() - b.timestamp.getTime())`
(Welcome.svelte lines 50-52 and 60-62).  JS `Array.prototype.sort` is
required to be stable; `List.insertionSort` is a stable sort. -/
def sortByTimestamp (l : List ChatEvent) : List ChatEvent :=
  List.insertionSort tsLe l

/-- Sortedness ascending by timestamp. -/
def sortedByTs (l : List ChatEvent) : Prop :=
  List.Sorted tsLe l

/-- The id projection of a message list. -/
def ids (l : List ChatEvent) : List String :=
  l.map ChatEvent.id

/-- The `EventRecord`-level image of one dedup-then-push iteration: the
record is appended exactly when its id is not yet present. -/
def addIfNewId (msgs : List ChatEvent) (e : ChatEvent) : List ChatEvent :=
  if hasId msgs e.id then msgs else msgs ++ [e]

/-- `reconcile(current, incoming)` (spec section 4.3), as the program
implements it: dedup `incoming` against the accumulator at fetch time
(first occurrence wins), then stable-sort by timestamp (the caller's
`.sort` in Welcome.svelte). -/
def reconcile (current incoming : List ChatEvent) : List ChatEvent :=
  sortByTimestamp (incoming.foldl addIfNewId current)

/-- `callGetMessages` (Welcome.svelte lines 48-53). -/
def callGetMessages (r : IndexerResult) : List ChatEvent :=
  sortByTimestamp (getMessages r)

/-- `callGetEvents` (Welcome.svelte lines 55-63), value-level view:
merge the fetch result into `msgs`, then sort. -/
def callGetEvents (msgs : List ChatEvent) (fetched : RpcResult) : List ChatEvent :=
  sortByTimestamp (getEvents msgs fetched)

/-- Poll scheduler phases (spec section 4.4): Idle, Running, Stopped. -/
inductive Phase where
  | idle
  | running
  | stopped
deriving DecidableEq

/-- Session state of the Welcome component: lifecycle phase, whether the
`setInterval` handle is live, and the shared message list. -/
structure SessionState where
  phase : Phase
  timer : Bool
  msgs : List ChatEvent
deriving DecidableEq

/-- `let msgs: ChatEvent[] = []` before `onMount` runs. -/
def initialState : SessionState :=
  ⟨.idle, false, []⟩

/-- Environment inputs consumed by one lifecycle step: `onMount` uses
one indexer result, one `getLatestLedger` sequence and one live fetch
result; each interval tick uses a fresh sequence and live fetch result;
`onDestroy` consumes nothing. -/
inductive Action where
  | mount (hist : IndexerResult) (latestSeq : Int) (live : RpcResult)
  | tick (latestSeq : Int) (live : RpcResult)
  | destroy
deriving DecidableEq

/-- The `startLedger` passed to `rpc.getEvents`: both the mount-time
fetch and every tick compute `sequence - 17_280` from the current
`getLatestLedger` result (Welcome.svelte lines 26 and 31,
`// last 24 hrs`). -/
def tickStartLedger (latestSeq : Int) : Int :=
  latestSeq - 17280

/-- The start ledger requested by each action. -/
def requestStartLedger : Action → Option Int
  | .mount _ latestSeq _ => some (tickStartLedger latestSeq)
  | .tick latestSeq _ => some (tickStartLedger latestSeq)
  | .destroy => none

/-- Lifecycle step relation of the Welcome component
(Welcome.svelte lines 20-46):
* `onMount` (from Idle): `callGetMessages`, then one `callGetEvents`
  over the look-back window, then `setInterval` arms the timer.
* each interval tick (Running, timer armed): one `callGetEvents`.
* `onDestroy` (from Running): `clearInterval`; the list is untouched. -/
inductive Step : SessionState → Action → SessionState → Prop where
  | mount (s : SessionState) (hist : IndexerResult) (latestSeq : Int)
      (live : RpcResult) (hphase : s.phase = .idle) :
      Step s (.mount hist latestSeq live)
        ⟨.running, true, callGetEvents (callGetMessages hist) live⟩
  | tick (s : SessionState) (latestSeq : Int) (live : RpcResult)
      (hphase : s.phase = .running) (htimer : s.timer = true) :
      Step s (.tick latestSeq live)
        ⟨.running, true, callGetEvents s.msgs live⟩
  | destroy (s : SessionState) (hphase : s.phase = .running) :
      Step s .destroy ⟨.stopped, false, s.msgs⟩

/-- Some step with some environment input. -/
def stepAny (a b : SessionState) : Prop :=
  ∃ act, Step a act b

/-- States reachable from a given state. -/
def ReachableFrom (s t : SessionState) : Prop :=
  Relation.ReflTransGen stepAny s t

/-- States reachable from component creation. -/
def Reachable (s : SessionState) : Prop :=
  ReachableFrom initialState s

/-- JS array references for the in-place-mutation model. -/
abbrev Ref := Nat

/-- A heap of JS arrays of chat events. -/
abbrev ArrayHeap := Ref → List ChatEvent

/-- Overwrite the contents stored at one reference. -/
def writeRef (h : ArrayHeap) (r : Ref) (v : List ChatEvent) : ArrayHeap :=
  fun x => if x = r then v else h x

/-- Heap-level `getEvents`: the loop `msgs.push(...)` mutates the array
passed in, and `return msgs` returns that same array (no copy is ever
made). -/
def getEventsHeap (h : ArrayHeap) (msgsRef : Ref) (fetched : RpcResult) :
    ArrayHeap × Ref :=
  (writeRef h msgsRef (getEvents (h msgsRef) fetched), msgsRef)

/-- Heap-level `msgs.sort(...)`: `Array.prototype.sort` sorts in place
and returns the same array. -/
def sortHeap (h : ArrayHeap) (r : Ref) : ArrayHeap × Ref :=
  (writeRef h r (sortByTimestamp (h r)), r)

/-- Heap-level `callGetEvents` (Welcome.svelte lines 55-63):
`msgs = await getEvents(msgs, limit, found); msgs = msgs.sort(...)`. -/
def callGetEventsHeap (h : ArrayHeap) (msgsRef : Ref) (fetched : RpcResult) :
    ArrayHeap × Ref :=
  let p := getEventsHeap h msgsRef fetched
  sortHeap p.1 p.2

/-- Heap-level `callGetMessages` (Welcome.svelte lines 48-53):
`msgs = await getMessages(); msgs = msgs.sort(...)`.  `getMessages()`
takes no arguments and builds a new array, so the result lives at a
freshly allocated reference (passed in as `fresh`, the standard way to
model allocation); the in-place sort then touches only that new array,
and the published binding is moved to it. -/
def callGetMessagesHeap (h : ArrayHeap) (fresh : Ref) (hist : IndexerResult) :
    ArrayHeap × Ref :=
  let p := (writeRef h fresh (getMessages hist), fresh)
  sortHeap p.1 p.2

/-- The three ellipsis characters inserted by `truncate`. -/
def ellipsis : List Char :=
  ['.', '.', '.']

/-- `truncate` from src/utils/base.ts (docs/frontend.md lines 331-335):
the template `${str.slice(0, chars)}...${str.slice(-chars)}`.
`slice(0, chars)` takes the first `chars` characters; `slice(-chars)`
with `chars > 0` takes the last `min chars length` characters, and
`slice(-0)` is `slice(0)`, the whole string. -/
def truncate (str : List Char) (chars : Nat) : List Char :=
  str.take chars ++ ellipsis ++
    (if chars = 0 then str else str.drop (str.length - chars))

/-- A raw event of the recognized account-address shape, used as
concrete input. -/
def sampleRawEvent : RawEvent :=
  { type_ := "contract"
    contractId := some "C"
    id := "e1"
    topic0 := .scAddressTypeAccount "k"
    value := "hi"
    ledgerClosedAt := 5
    txHash := "t1" }

/-- A raw event whose address-union discriminator is neither the
account-style nor the contract-style encoding. -/
def unknownDiscrRawEvent : RawEvent :=
  { type_ := "contract"
    contractId := some "C"
    id := "e2"
    topic0 := .otherDiscriminator "scAddressTypeMuxedAccount" "p"
    value := "yo"
    ledgerClosedAt := 7
    txHash := "t2" }

/-- A chat record with id "a" and timestamp 0, used as concrete input. -/
def dupA1 : ChatEvent :=
  ⟨"a", none, 0, "t1", "m1"⟩

/-- A second chat record that shares the id "a" (timestamp 1), used as
concrete input. -/
def dupA2 : ChatEvent :=
  ⟨"a", none, 1, "t2", "m2"⟩

/-- A running session whose message list is empty. -/
def runningEmpty : SessionState :=
  ⟨.running, true, []⟩

/-- A stopped session whose message list is empty. -/
def stoppedEmpty : SessionState :=
  ⟨.stopped, false, []⟩

/-! ## General lemmas about the embedded operations -/

theorem hasId_iff (msgs : List ChatEvent) (i : String) :
    hasId msgs i = true ↔ i ∈ ids msgs := by
  simp [hasId, ids, List.any_eq_true, List.mem_map]

theorem mem_ids_addIfNewId (msgs : List ChatEvent) (e : ChatEvent) (i : String) :
    i ∈ ids (addIfNewId msgs e) ↔ i ∈ ids msgs ∨ i = e.id := by
  by_cases h : hasId msgs e.id
  · have hmem := (hasId_iff msgs e.id).mp h
    simp only [addIfNewId, if_pos h]
    constructor
    · exact Or.inl
    · rintro (hi | rfl)
      · exact hi
      · exact hmem
  · simp only [addIfNewId, if_neg h, ids, List.map_append, List.map_cons,
      List.map_nil, List.mem_append, List.mem_singleton]

theorem ids_addIfNewId_nodup (msgs : List ChatEvent) (e : ChatEvent)
    (h : (ids msgs).Nodup) : (ids (addIfNewId msgs e)).Nodup := by
  by_cases hh : hasId msgs e.id
  · simpa [addIfNewId, hh] using h
  · have hnot : e.id ∉ ids msgs := fun hmem => hh ((hasId_iff msgs e.id).mpr hmem)
    simp only [addIfNewId, if_neg hh, ids, List.map_append, List.map_cons, List.map_nil]
    refine List.Nodup.append h (List.nodup_singleton _) ?_
    intro a ha hb
    rw [List.mem_singleton] at hb
    exact hnot (hb ▸ ha)

theorem foldl_addIfNewId_nodup (B A : List ChatEvent) (h : (ids A).Nodup) :
    (ids (B.foldl addIfNewId A)).Nodup := by
  induction B generalizing A with
  | nil => exact h
  | cons e B ih => exact ih _ (ids_addIfNewId_nodup A e h)

theorem mem_ids_foldl_addIfNewId (B A : List ChatEvent) (i : String) :
    i ∈ ids (B.foldl addIfNewId A) ↔ i ∈ ids A ∨ i ∈ ids B := by
  induction B generalizing A with
  | nil => simp [ids]
  | cons e B ih =>
    rw [List.foldl_cons, ih, mem_ids_addIfNewId]
    simp only [ids, List.map_cons, List.mem_cons]
    tauto

theorem foldl_addIfNewId_of_known (B A : List ChatEvent)
    (h : ∀ e ∈ B, e.id ∈ ids A) : B.foldl addIfNewId A = A := by
  induction B with
  | nil => rfl
  | cons e B ih =>
    have he : hasId A e.id = true :=
      (hasId_iff A e.id).mpr (h e (List.mem_cons_self e B))
    rw [List.foldl_cons]
    rw [addIfNewId, if_pos he]
    exact ih fun x hx => h x (List.mem_cons_of_mem e hx)

theorem processEvents_eq_foldl (events : List RawEvent) (msgs : List ChatEvent) :
    processEvents msgs events =
      ((events.filter passesFilter).map toChatEvent).foldl addIfNewId msgs := by
  induction events generalizing msgs with
  | nil => rfl
  | cons e es ih =>
    by_cases hp : passesFilter e = true
    · rw [List.filter_cons_of_pos hp, List.map_cons, List.foldl_cons]
      have hpe : processEvent msgs e = addIfNewId msgs (toChatEvent e) := by
        simp [processEvent, hp, addIfNewId, toChatEvent]
      show List.foldl processEvent (processEvent msgs e) es = _
      rw [hpe]
      exact ih _
    · rw [List.filter_cons_of_neg hp]
      have hpe : processEvent msgs e = msgs := by
        simp only [processEvent]
        rw [if_pos (by simpa using hp)]
      show List.foldl processEvent (processEvent msgs e) es = _
      rw [hpe]
      exact ih _

theorem processEvents_of_known (events : List RawEvent) (msgs : List ChatEvent)
    (h : ∀ e ∈ events, passesFilter e = true → e.id ∈ ids msgs) :
    processEvents msgs events = msgs := by
  rw [processEvents_eq_foldl]
  refine foldl_addIfNewId_of_known _ _ ?_
  intro x hx
  rw [List.mem_map] at hx
  obtain ⟨e, he, rfl⟩ := hx
  rw [List.mem_filter] at he
  exact h e he.1 he.2

theorem sortByTimestamp_perm (l : List ChatEvent) :
    List.Perm (sortByTimestamp l) l :=
  List.perm_insertionSort tsLe l

theorem sortByTimestamp_sorted (l : List ChatEvent) :
    sortedByTs (sortByTimestamp l) :=
  List.sorted_insertionSort tsLe l

theorem sortByTimestamp_of_sorted {l : List ChatEvent} (h : sortedByTs l) :
    sortByTimestamp l = l :=
  List.Sorted.insertionSort_eq h

theorem filter_ts_orderedInsert (e : ChatEvent) (l : List ChatEvent) (t : Nat) :
    (List.orderedInsert tsLe e l).filter (fun x => x.timestamp == t) =
      if e.timestamp == t then e :: l.filter (fun x => x.timestamp == t)
      else l.filter (fun x => x.timestamp == t) := by
  induction l with
  | nil =>
    by_cases he : e.timestamp = t
    · have he' : (e.timestamp == t) = true := by simp [he]
      simp [List.orderedInsert, List.filter_cons, he']
    · have he' : (e.timestamp == t) = false := by simp [he]
      simp [List.orderedInsert, List.filter_cons, he']
  | cons b bs ih =>
    by_cases hle : tsLe e b
    · rw [List.orderedInsert, if_pos hle]
      simp [List.filter_cons]
    · rw [List.orderedInsert, if_neg hle]
      have hlt : b.timestamp < e.timestamp := by
        simpa [tsLe, Nat.not_le] using hle
      by_cases he : e.timestamp = t
      · have hb : (b.timestamp == t) = false := by
          simp only [beq_eq_false_iff_ne, ne_eq]
          omega
        simp [List.filter_cons, ih, he, hb]
      · have he' : (e.timestamp == t) = false := by simp [he]
        simp [List.filter_cons, ih, he']

theorem filter_ts_sortByTimestamp (l : List ChatEvent) (t : Nat) :
    (sortByTimestamp l).filter (fun x => x.timestamp == t) =
      l.filter (fun x => x.timestamp == t) := by
  induction l with
  | nil => rfl
  | cons a l ih =>
    show (List.insertionSort tsLe (a :: l)).filter _ = _
    rw [List.insertionSort, filter_ts_orderedInsert]
    simp only [sortByTimestamp] at ih
    rw [ih]
    by_cases ha : a.timestamp = t
    · simp [List.filter_cons, ha]
    · simp [List.filter_cons, ha]

theorem sorted_of_reachableFrom (s t : SessionState)
    (hs : sortedByTs s.msgs) (h : Relation.ReflTransGen stepAny s t) :
    sortedByTs t.msgs := by
  induction h with
  | refl => exact hs
  | tail hab hbc ih =>
    obtain ⟨act, hstep⟩ := hbc
    cases hstep with
    | mount hist latestSeq live hphase => exact sortByTimestamp_sorted _
    | tick latestSeq live hphase htimer => exact sortByTimestamp_sorted _
    | destroy hphase => exact ih

theorem no_step_of_stopped (s : SessionState) (hs : s.phase = .stopped)
    (act : Action) (u : SessionState) (h : Step s act u) : False := by
  cases h with
  | mount hist latestSeq live hphase => simp [hphase] at hs
  | tick latestSeq live hphase htimer => simp [hphase] at hs
  | destroy hphase => simp [hphase] at hs

theorem reachableFrom_stopped (s t : SessionState) (hs : s.phase = .stopped)
    (h : Relation.ReflTransGen stepAny s t) : t = s := by
  induction h with
  | refl => rfl
  | tail hab hbc ih =>
    obtain ⟨act, hstep⟩ := hbc
    rw [ih] at hstep
    exact (no_step_of_stopped _ hs _ _ hstep).elim

/-! ## Claim theorems -/

/-- C1, counterexample: the dedup check only guards records being added
from the incoming batch, so when the current list itself already holds
two records with the same id, the merged result keeps both — the claim
quantified over all sequences A is false (here A has id "a" twice and B
is empty). -/
theorem reconcile_dup_input_counterexample :
    (ids (reconcile [dupA1, dupA2] [])).count "a" = 2 ∧
    ¬ (ids (reconcile [dupA1, dupA2] [])).Nodup := by
  decide

/-- C1, amended: if the current sequence A contains no duplicate ids
(as every accumulator actually built by the fetch loop does), then
`reconcile A B` contains no two records with the same id, and an id is
in the result exactly when it is in A or in B — together with freedom
from duplicates, each such id occurs exactly once. -/
theorem reconcile_nodup_ids (A B : List ChatEvent) (hA : (ids A).Nodup) :
    (ids (reconcile A B)).Nodup ∧
    ∀ i : String, i ∈ ids (reconcile A B) ↔ (i ∈ ids A ∨ i ∈ ids B) := by
  have hperm : List.Perm (ids (reconcile A B)) (ids (B.foldl addIfNewId A)) :=
    (sortByTimestamp_perm (B.foldl addIfNewId A)).map ChatEvent.id
  constructor
  · exact hperm.nodup_iff.mpr (foldl_addIfNewId_nodup B A hA)
  · exact fun i => hperm.mem_iff.trans (mem_ids_foldl_addIfNewId B A i)

/-- C1, witness for the amended theorem at A = [dupA1], B = [dupA2]. -/
theorem reconcile_nodup_ids_witness :
    (ids (reconcile [dupA1] [dupA2])).Nodup ∧
    ∀ i : String, i ∈ ids (reconcile [dupA1] [dupA2]) ↔
      (i ∈ ids [dupA1] ∨ i ∈ ids [dupA2]) :=
  reconcile_nodup_ids [dupA1] [dupA2] (by decide)

/-- C2: the output of `reconcile` is sorted ascending by timestamp for
any input ordering of A and B; records of equal timestamp keep their
insertion order (the sort is stable: filtering the output at any
timestamp value gives exactly the equal-timestamp records in the order
the union inserted them); and both the historical seed
(`callGetMessages`) and every live-fetch merge (`callGetEvents`)
publish a list sorted the same way. -/
theorem reconcile_sorted_stable (A B : List ChatEvent) :
    sortedByTs (reconcile A B) ∧
    (∀ t : Nat, (reconcile A B).filter (fun e => e.timestamp == t) =
      (B.foldl addIfNewId A).filter (fun e => e.timestamp == t)) ∧
    (∀ r, sortedByTs (callGetMessages r)) ∧
    (∀ msgs fetched, sortedByTs (callGetEvents msgs fetched)) := by
  refine ⟨sortByTimestamp_sorted _, ?_, fun r => sortByTimestamp_sorted _,
    fun msgs fetched => sortByTimestamp_sorted _⟩
  intro t
  exact filter_ts_sortByTimestamp _ t

/-- C3: reconciling A with the empty sequence yields A sorted by
timestamp, and reconciling A with A itself yields the same result —
re-running with the same inputs never changes the result. -/
theorem reconcile_idempotent (A : List ChatEvent) :
    reconcile A [] = sortByTimestamp A ∧ reconcile A A = reconcile A [] := by
  constructor
  · rfl
  · show sortByTimestamp (A.foldl addIfNewId A) = _
    rw [foldl_addIfNewId_of_known A A fun e he => List.mem_map_of_mem ChatEvent.id he]
    rfl

/-- C4, counterexample: the switch on the address discriminator has no
default arm, so for a raw event whose discriminator is neither the
account-style nor the contract-style encoding the produced record's
sender is `undefined` (`none`), not the string "unknown". -/
theorem decode_unknown_discriminator_counterexample :
    (processEvents [] [unknownDiscrRawEvent]).map ChatEvent.addr = [none] ∧
    (none : Option String) ≠ some "unknown" := by
  decide

/-- C4, amended: for every raw event that passes the contract filter,
is not yet in the accumulator, and carries an unrecognized
address-union discriminator, the live-source decode still produces an
EventRecord for it (the record is appended, neither dropped nor a
failure), with its sender field left undefined (`none`) rather than the
string "unknown". -/
theorem decode_unknown_discriminator_keeps_record (msgs : List ChatEvent)
    (e : RawEvent) (discName payload : String)
    (htype : e.type_ = "contract") (hcid : truthy e.contractId = true)
    (htopic : e.topic0 = .otherDiscriminator discName payload)
    (hnew : hasId msgs e.id = false) :
    processEvents msgs [e] = msgs ++ [toChatEvent e] ∧
    (toChatEvent e).addr = none := by
  constructor
  · show processEvent msgs e = _
    have hp : passesFilter e = true := by simp [passesFilter, htype, hcid]
    simp [processEvent, hp, hnew]
  · simp [toChatEvent, decodeAddr, htopic]

/-- C4, witness for the amended theorem at the concrete unrecognized
discriminator event. -/
theorem decode_unknown_discriminator_keeps_record_witness :
    processEvents [] [unknownDiscrRawEvent] = [] ++ [toChatEvent unknownDiscrRawEvent] ∧
    (toChatEvent unknownDiscrRawEvent).addr = none :=
  decode_unknown_discriminator_keeps_record [] unknownDiscrRawEvent
    "scAddressTypeMuxedAccount" "p" rfl (by decide) rfl (by decide)

/-- C8: when the indexing backend fails, `getMessages` returns the
empty sequence to its caller instead of propagating the error, the
caller publishes the empty (sorted) list, and the session still mounts
and runs with zero historical messages. -/
theorem getMessages_failure_empty (live : RpcResult) (latestSeq : Int) :
    getMessages .indexerUnavailable = [] ∧
    callGetMessages .indexerUnavailable = [] ∧
    Step initialState (.mount .indexerUnavailable latestSeq live)
      ⟨.running, true, callGetEvents (callGetMessages .indexerUnavailable) live⟩ :=
  ⟨rfl, rfl, Step.mount initialState .indexerUnavailable latestSeq live rfl⟩

/-- C5: when the live fetch fails at the transport level, `getEvents`
returns the existing sequence unchanged, and the published merged list
after the failed tick equals the merged list before the tick (the
pre-tick list of any reachable session is already sorted, so the
unconditional re-sort does not change it either). -/
theorem tick_rpcUnavailable_preserves_list (s s' : SessionState)
    (latestSeq : Int) (hreach : Reachable s)
    (hstep : Step s (.tick latestSeq .rpcUnavailable) s') :
    getEvents s.msgs .rpcUnavailable = s.msgs ∧ s'.msgs = s.msgs := by
  have hsorted : sortedByTs s.msgs :=
    sorted_of_reachableFrom initialState s List.sorted_nil hreach
  refine ⟨rfl, ?_⟩
  cases hstep with
  | tick latestSeq live hphase htimer =>
    show sortByTimestamp (getEvents s.msgs .rpcUnavailable) = s.msgs
    exact sortByTimestamp_of_sorted hsorted

/-- C5, witness: a failed tick on a reachable running session with the
empty list leaves the list equal to itself. -/
theorem tick_rpcUnavailable_preserves_list_witness :
    getEvents runningEmpty.msgs .rpcUnavailable = runningEmpty.msgs ∧
    runningEmpty.msgs = runningEmpty.msgs :=
  tick_rpcUnavailable_preserves_list runningEmpty runningEmpty 0
    (Relation.ReflTransGen.single
      ⟨.mount .indexerUnavailable 0 .rpcUnavailable,
        Step.mount initialState .indexerUnavailable 0 .rpcUnavailable rfl⟩)
    (Step.tick runningEmpty 0 .rpcUnavailable rfl rfl)

/-- C6, counterexample: consecutive Running-to-Running ticks do not
query from a cursor advanced by previous fetches.  After a tick taken
at latest ledger 2000000 (whose query window extends up to 2000000),
the next tick at latest ledger 2000002 requests `startLedger`
1982722 = 2000002 - 17280, far below 2000000: the fixed 17280-ledger
look-back window is re-scanned on every tick. -/
theorem tick_fixed_window_counterexample :
    Step runningEmpty (.tick 2000000 (.ok [])) runningEmpty ∧
    Step runningEmpty (.tick 2000002 (.ok [])) runningEmpty ∧
    requestStartLedger (.tick 2000002 (.ok [])) = some 1982722 ∧
    (1982722 : Int) < 2000000 := by
  refine ⟨Step.tick runningEmpty 2000000 (.ok []) rfl rfl,
    Step.tick runningEmpty 2000002 (.ok []) rfl rfl, ?_, by decide⟩
  show some (2000002 - 17280 : Int) = some 1982722
  decide

/-- C6, amended: every Running-to-Running tick re-invokes the live
fetch with `startLedger = latestLedgerSequence - 17280`, a fixed
look-back window recomputed from the current latest ledger rather than
a cursor advanced by previous fetches; the dedup check makes the
re-scan harmless — a tick whose fetched batch contains only records
already in the list leaves the published list unchanged up to its
(idempotent) re-sort. -/
theorem tick_fixed_window_rescan_harmless (s s' : SessionState)
    (latestSeq : Int) (events : List RawEvent)
    (hstep : Step s (.tick latestSeq (.ok events)) s')
    (hknown : ∀ e ∈ events, passesFilter e = true → e.id ∈ ids s.msgs) :
    requestStartLedger (.tick latestSeq (.ok events)) =
      some (latestSeq - 17280) ∧
    s'.msgs = sortByTimestamp s.msgs := by
  refine ⟨rfl, ?_⟩
  cases hstep with
  | tick latestSeq live hphase htimer =>
    show sortByTimestamp (processEvents s.msgs events) = sortByTimestamp s.msgs
    rw [processEvents_of_known events s.msgs hknown]

/-- C6, witness for the amended theorem: a tick with an empty batch on
the empty running session. -/
theorem tick_fixed_window_rescan_harmless_witness :
    requestStartLedger (.tick 0 (.ok [])) = some (0 - 17280) ∧
    runningEmpty.msgs = sortByTimestamp runningEmpty.msgs :=
  tick_fixed_window_rescan_harmless runningEmpty runningEmpty 0 []
    (Step.tick runningEmpty 0 (.ok []) rfl rfl)
    (fun e he => absurd he (List.not_mem_nil e))

/-- C7, counterexample: a fetch that discovers one new record returns
the very same array reference it was given and mutates the contents
stored at that reference — the list object observers already hold has
been edited in place (appended into and re-sorted), refuting
"every mutation is a full-list replacement, never an in-place edit". -/
theorem callGetEvents_in_place_counterexample :
    (callGetEventsHeap (fun _ => []) 0 (.ok [sampleRawEvent])).2 = 0 ∧
    (callGetEventsHeap (fun _ => []) 0 (.ok [sampleRawEvent])).1 0 ≠
      (fun _ => ([] : List ChatEvent)) 0 := by
  constructor
  · rfl
  · decide

/-- C7, amended: the historical seed is a full-list replacement —
`getMessages()` takes no arguments and builds a new array, so
`callGetMessages` publishes a freshly allocated reference holding the
sorted rows and leaves the contents of every other array (in
particular the previously published one) untouched — but every
live-fetch merge mutates the shared message array in place:
`getEvents` pushes the newly decoded records onto the array it was
given and returns the same reference, `.sort` then reorders that same
array, and the same reference is republished, so a fetch does append
into and reorder the currently published list; in both paths only the
contents at the single returned reference change. -/
theorem callGetEvents_in_place_update (h : ArrayHeap) (r : Ref)
    (fetched : RpcResult) (fresh : Ref) (hist : IndexerResult) :
    (callGetEventsHeap h r fetched).2 = r ∧
    (callGetEventsHeap h r fetched).1 r =
      sortByTimestamp (getEvents (h r) fetched) ∧
    (∀ x : Ref, x = r ∨ (callGetEventsHeap h r fetched).1 x = h x) ∧
    (callGetMessagesHeap h fresh hist).2 = fresh ∧
    (callGetMessagesHeap h fresh hist).1 fresh =
      sortByTimestamp (getMessages hist) ∧
    (∀ x : Ref, x = fresh ∨ (callGetMessagesHeap h fresh hist).1 x = h x) := by
  refine ⟨rfl, ?_, ?_, rfl, ?_, ?_⟩
  · show writeRef (writeRef h r (getEvents (h r) fetched)) r
      (sortByTimestamp (writeRef h r (getEvents (h r) fetched) r)) r = _
    simp [writeRef]
  · intro x
    by_cases hx : x = r
    · exact Or.inl hx
    · refine Or.inr ?_
      show writeRef (writeRef h r (getEvents (h r) fetched)) r
        (sortByTimestamp (writeRef h r (getEvents (h r) fetched) r)) x = h x
      simp [writeRef, hx]
  · show writeRef (writeRef h fresh (getMessages hist)) fresh
      (sortByTimestamp (writeRef h fresh (getMessages hist) fresh)) fresh = _
    simp [writeRef]
  · intro x
    by_cases hx : x = fresh
    · exact Or.inl hx
    · refine Or.inr ?_
      show writeRef (writeRef h fresh (getMessages hist)) fresh
        (sortByTimestamp (writeRef h fresh (getMessages hist) fresh)) x = h x
      simp [writeRef, hx]

/-- C9: once the Running-to-Stopped transition fires (onDestroy cancels
the pending timer), the scheduler initiates nothing further: every
state reachable from the post-destroy state is that state itself, and
no step of any kind — in particular no tick — is possible from it. -/
theorem no_tick_after_destroy (s s' t : SessionState)
    (hd : Step s .destroy s') (hr : ReachableFrom s' t) :
    t = s' ∧ ∀ act u, ¬ Step t act u := by
  have hstop : s'.phase = .stopped := by
    cases hd with
    | destroy hphase => rfl
  have ht : t = s' := reachableFrom_stopped s' t hstop hr
  subst ht
  exact ⟨rfl, fun act u hh => no_step_of_stopped t hstop act u hh⟩

/-- C9, witness: destroying the empty running session, then taking the
empty trace from the stopped state. -/
theorem no_tick_after_destroy_witness :
    stoppedEmpty = stoppedEmpty ∧ ∀ act u, ¬ Step stoppedEmpty act u :=
  no_tick_after_destroy runningEmpty stoppedEmpty stoppedEmpty
    (Step.destroy runningEmpty rfl) Relation.ReflTransGen.refl

/-- C10, counterexample: for the 2-character input "ab" with n = 1 the
length of the input equals 2n, the output is "a...b", and no character
of the input occurs in the output more often than in the input — so
"for every s with length at most 2n the output repeats characters of s"
is false at this input (and for n = 0 the output is not first-0 ++
"..." ++ last-0 either: truncate "a" 0 is "...a", not "..."). -/
theorem truncate_counterexample :
    (truncate ['a', 'b'] 1 = ['a', '.', '.', '.', 'b'] ∧
      (['a', 'b'] : List Char).length ≤ 2 * 1 ∧
      ((['a', 'b'] : List Char).all fun c =>
        (truncate ['a', 'b'] 1).count c ≤ (['a', 'b'] : List Char).count c) = true) ∧
    truncate ['a'] 0 ≠ ellipsis := by
  decide

/-- C10, amended: for every character count n ≥ 1, truncate(s, n)
returns the first n characters of s, then "...", then the last n
characters of s, with no guard on the length of s; consequently for
every nonempty s with length strictly less than 2n some character of s
is emitted at least twice in the output, and whenever the length of s
is at most 2n the output is strictly longer than the input. -/
theorem truncate_slices_spec (s : List Char) (n : Nat) (hn : 1 ≤ n) :
    truncate s n = s.take n ++ ellipsis ++ s.drop (s.length - n) ∧
    (0 < s.length → s.length < 2 * n →
      ∃ c, c ∈ s ∧ 2 ≤ (truncate s n).count c) ∧
    (s.length ≤ 2 * n → s.length < (truncate s n).length) := by
  have hne : n ≠ 0 := by omega
  refine ⟨by simp [truncate, hne], ?_, ?_⟩
  · intro hpos hlen
    have hm1 : 1 ≤ min n s.length := by omega
    have hover : s.length - min n s.length < min n s.length := by omega
    have hps : s.length - min n s.length < s.length := by omega
    refine ⟨s[s.length - min n s.length], List.getElem_mem hps, ?_⟩
    have hmem1 : s[s.length - min n s.length] ∈ s.take n := by
      have hlen1 : s.length - min n s.length < (s.take n).length := by
        simp [List.length_take]
        omega
      have heq : (s.take n)[s.length - min n s.length] =
          s[s.length - min n s.length] := List.getElem_take (h := hlen1)
      rw [← heq]
      exact List.getElem_mem hlen1
    have hmem2 : s[s.length - min n s.length] ∈ s.drop (s.length - n) := by
      have hlen2 : (s.length - min n s.length) - (s.length - n) <
          (s.drop (s.length - n)).length := by
        simp [List.length_drop]
        omega
      have hb : (s.length - n) + ((s.length - min n s.length) - (s.length - n)) <
          s.length := by
        omega
      have heq : (s.drop (s.length - n))[(s.length - min n s.length) - (s.length - n)] =
          s[(s.length - n) + ((s.length - min n s.length) - (s.length - n))] :=
        List.getElem_drop (h := hlen2)
      have hmem := List.getElem_mem hlen2
      rw [heq] at hmem
      have hidx : (s.length - n) + ((s.length - min n s.length) - (s.length - n)) =
          s.length - min n s.length := by omega
      simp_rw [hidx] at hmem
      exact hmem
    have hc1 : 1 ≤ (s.take n).count s[s.length - min n s.length] :=
      List.count_pos_iff.mpr hmem1
    have hc2 : 1 ≤ (s.drop (s.length - n)).count s[s.length - min n s.length] :=
      List.count_pos_iff.mpr hmem2
    have hexp : truncate s n = s.take n ++ ellipsis ++ s.drop (s.length - n) := by
      simp [truncate, hne]
    rw [hexp, List.count_append, List.count_append]
    omega
  · intro hlen
    have hexp : truncate s n = s.take n ++ ellipsis ++ s.drop (s.length - n) := by
      simp [truncate, hne]
    rw [hexp]
    simp [List.length_append, List.length_take, List.length_drop, ellipsis]
    omega

/-- C10, witness for the amended theorem at the 3-character input with
n = 4, where the whole input appears twice around the ellipsis. -/
theorem truncate_slices_spec_witness :
    truncate ['a', 'b', 'c'] 4 =
      (['a', 'b', 'c'] : List Char).take 4 ++ ellipsis ++
        (['a', 'b', 'c'] : List Char).drop ((['a', 'b', 'c'] : List Char).length - 4) ∧
    (0 < (['a', 'b', 'c'] : List Char).length →
      (['a', 'b', 'c'] : List Char).length < 2 * 4 →
      ∃ c, c ∈ (['a', 'b', 'c'] : List Char) ∧
        2 ≤ (truncate ['a', 'b', 'c'] 4).count c) ∧
    ((['a', 'b', 'c'] : List Char).length ≤ 2 * 4 →
      (['a', 'b', 'c'] : List Char).length < (truncate ['a', 'b', 'c'] 4).length) :=
  truncate_slices_spec ['a', 'b', 'c'] 4 (by decide)

end StellarChat
